import Mathlib

/-!
Verification development for the node-graph core (`src/graph/node.rs`).

The Rust source is shallowly embedded: machine integers become `Nat`
(identifiers are `NonZeroU32` in the source, embedded as a `Nat` together
with a positivity proof), `Vec` becomes `List`, `&mut` state becomes
explicit state passing, and fallible lookups return `Option`.  The
expression module (`Module`, `Attribute`, `BuiltInOperator`, `ExprError`)
is not part of the given source file; those few collaborators are modelled
from the spec and from their call sites in the source, and are marked as
such in their doc comments.
-/

namespace Hanabi

/-- Modelled from the spec: the value-type vocabulary of the expression
module, used purely as slot metadata (the expression module itself is not
in the given source). An opaque tag suffices for the claims. -/
structure ValueType where
  tag : Nat
deriving DecidableEq

/-- Modelled from the spec: a particle attribute (name plus value type),
used as slot metadata by `AttributeNode`. The attribute vocabulary lives
in the expression module, which is not in the given source. -/
structure Attribute where
  name : String
  value_type : ValueType
deriving DecidableEq

/-- Modelled from the spec: the attribute read by `AttributeNode::default()`. -/
def Attribute.POSITION : Attribute := { name := "position", value_type := { tag := 3 } }

/-- Modelled from the spec: a second attribute, used in concrete witness graphs. -/
def Attribute.VELOCITY : Attribute := { name := "velocity", value_type := { tag := 3 } }

/-- Modelled from the spec: the built-in operators used by `TimeNode`
(built-in time values of the effect system). -/
inductive BuiltInOperator where
  | Time
  | DeltaTime
deriving DecidableEq

/-- Modelled from the spec: name of a built-in operator. -/
def BuiltInOperator.name : BuiltInOperator → String
  | .Time => "time"
  | .DeltaTime => "delta_time"

/-- Modelled from the spec: value type of a built-in operator (a scalar). -/
def BuiltInOperator.value_type : BuiltInOperator → ValueType
  | .Time => { tag := 1 }
  | .DeltaTime => { tag := 1 }

/-- Opaque handle into the external expression builder.  Modelled from the
spec as the one-based index of the recorded expression. -/
abbrev ExprHandle := Nat

/-- Error type returned by node evaluation.  The full crate has more
variants; the node source only ever constructs `GraphEvalError`, the only
variant relevant to the claims. -/
inductive ExprError where
  | GraphEvalError (msg : String)
deriving DecidableEq

/-- Modelled from the spec: one primitive operation recorded by the
external expression builder (binary arithmetic, attribute read, built-in
value read, vector normalization). -/
inductive ExprOp where
  | addOp (lhs rhs : ExprHandle)
  | subOp (lhs rhs : ExprHandle)
  | mulOp (lhs rhs : ExprHandle)
  | divOp (lhs rhs : ExprHandle)
  | attrOp (attr : Attribute)
  | builtinOp (op : BuiltInOperator)
  | normalizeOp (e : ExprHandle)
deriving DecidableEq

/-- Modelled from the spec: the external expression builder.  It records
primitive operations and hands back opaque expression handles; the node
code is a pure client of this interface.  The call sites in the source
show each recording operation is infallible and returns a handle. -/
structure Module where
  exprs : List ExprOp
deriving DecidableEq

/-- Modelled from the spec: record one operation, returning the new
builder state and the (one-based) handle of the recorded operation. -/
def Module.push (m : Module) (op : ExprOp) : Module × ExprHandle :=
  ({ exprs := m.exprs ++ [op] }, m.exprs.length + 1)

/-- Modelled from the spec: record a binary addition. -/
def Module.add (m : Module) (lhs rhs : ExprHandle) : Module × ExprHandle :=
  m.push (.addOp lhs rhs)

/-- Modelled from the spec: record a binary subtraction. -/
def Module.sub (m : Module) (lhs rhs : ExprHandle) : Module × ExprHandle :=
  m.push (.subOp lhs rhs)

/-- Modelled from the spec: record a binary multiplication. -/
def Module.mul (m : Module) (lhs rhs : ExprHandle) : Module × ExprHandle :=
  m.push (.mulOp lhs rhs)

/-- Modelled from the spec: record a binary division. -/
def Module.div (m : Module) (lhs rhs : ExprHandle) : Module × ExprHandle :=
  m.push (.divOp lhs rhs)

/-- Modelled from the spec: record an attribute read. -/
def Module.attr (m : Module) (a : Attribute) : Module × ExprHandle :=
  m.push (.attrOp a)

/-- Modelled from the spec: record a built-in value read. -/
def Module.builtin (m : Module) (op : BuiltInOperator) : Module × ExprHandle :=
  m.push (.builtinOp op)

/-- Modelled from the spec: record a vector normalization. -/
def Module.normalize (m : Module) (e : ExprHandle) : Module × ExprHandle :=
  m.push (.normalizeOp e)

/-- Embeds `NodeId`: one-based handle into the node arena.  The source wraps a
`NonZeroU32`; the embedding carries the positivity proof. -/
structure NodeId where
  val : Nat
  pos : 0 < val

theorem NodeId.nid_val_inj : ∀ {a b : NodeId}, a.val = b.val → a = b
  | ⟨_, _⟩, ⟨_, _⟩, rfl => rfl

instance : DecidableEq NodeId := fun a b =>
  if h : a.val = b.val then .isTrue (NodeId.nid_val_inj h)
  else .isFalse (fun hh => h (congrArg NodeId.val hh))

/-- Zero-based index of the node in the underlying graph node array
(`NodeId::index`). -/
def NodeId.index (n : NodeId) : Nat := n.val - 1

/-- Embeds `SlotId`: one-based handle into the flat slot arena.  The source wraps
a `NonZeroU32`; the embedding carries the positivity proof. -/
structure SlotId where
  val : Nat
  pos : 0 < val

theorem SlotId.sid_val_inj : ∀ {a b : SlotId}, a.val = b.val → a = b
  | ⟨_, _⟩, ⟨_, _⟩, rfl => rfl

instance : DecidableEq SlotId := fun a b =>
  if h : a.val = b.val then .isTrue (SlotId.sid_val_inj h)
  else .isFalse (fun hh => h (congrArg SlotId.val hh))

/-- Zero-based index of the slot in the underlying graph slot array
(`SlotId::index`). -/
def SlotId.index (s : SlotId) : Nat := s.val - 1

theorem SlotId.index_inj {a b : SlotId} (h : a.index = b.index) : a = b := by
  apply SlotId.sid_val_inj
  have ha := a.pos
  have hb := b.pos
  unfold SlotId.index at h
  omega

/-- Node slot direction (`SlotDir`). -/
inductive SlotDir where
  | Input
  | Output
deriving DecidableEq

/-- Definition of a slot of a node (`SlotDef`). -/
structure SlotDef where
  name : String
  dir : SlotDir
  value_type : Option ValueType
deriving DecidableEq

/-- Embeds `SlotDef::input`. -/
def SlotDef.input (name : String) (value_type : Option ValueType) : SlotDef :=
  { name := name, dir := SlotDir.Input, value_type := value_type }

/-- Embeds `SlotDef::output`. -/
def SlotDef.output (name : String) (value_type : Option ValueType) : SlotDef :=
  { name := name, dir := SlotDir.Output, value_type := value_type }

/-- Embeds `SlotDef::is_input`. -/
def SlotDef.is_input (d : SlotDef) : Bool := d.dir == SlotDir.Input

/-- Embeds `SlotDef::is_output`. -/
def SlotDef.is_output (d : SlotDef) : Bool := d.dir == SlotDir.Output

/-- Single slot of a node (`Slot`).  The `def` field of the source is
named `sdef` here because `def` is a Lean keyword. -/
structure Slot where
  node_id : NodeId
  id : SlotId
  sdef : SlotDef
  linked_slots : List SlotId
deriving DecidableEq

/-- Embeds `Slot::new`: a fresh slot with no links. -/
def Slot.new (node_id : NodeId) (slot_id : SlotId) (slot_def : SlotDef) : Slot :=
  { node_id := node_id, id := slot_id, sdef := slot_def, linked_slots := [] }

/-- Embeds `Slot::dir`. -/
def Slot.dir (s : Slot) : SlotDir := s.sdef.dir

/-- Embeds `Slot::is_input`. -/
def Slot.is_input (s : Slot) : Bool := s.dir == SlotDir.Input

/-- Embeds `Slot::is_output`. -/
def Slot.is_output (s : Slot) : Bool := s.dir == SlotDir.Output

/-- Embeds `Slot::link_to` (output slots only; the direction assertion of the
source becomes a side condition of the `Reachable` step relation):
idempotent append of `input` to the link list if absent. -/
def Slot.link_to (s : Slot) (input : SlotId) : Slot :=
  if input ∈ s.linked_slots then s
  else { s with linked_slots := s.linked_slots ++ [input] }

/-- Embeds `Slot::unlink_from` (output slots only): remove `input` from the link
list if present (first occurrence, as `Vec::remove` at the found
position), reporting whether a removal occurred. -/
def Slot.unlink_from (s : Slot) (input : SlotId) : Slot × Bool :=
  if input ∈ s.linked_slots then
    ({ s with linked_slots := s.linked_slots.erase input }, true)
  else (s, false)

/-- Embeds `Slot::link_input` (input slots only): set the single upstream link,
silently overwriting any prior value (the source writes
`linked_slots[0] = output` on a non-empty list). -/
def Slot.link_input (s : Slot) (output : SlotId) : Slot :=
  match s.linked_slots with
  | [] => { s with linked_slots := [output] }
  | _ :: rest => { s with linked_slots := output :: rest }

/-- Embeds `Slot::unlink_input` (input slots only): clear the link list. -/
def Slot.unlink_input (s : Slot) : Slot :=
  { s with linked_slots := [] }

/-- The shipped node variants, plus `custom`, which stands for any other
implementor of the open `Node` trait (the trait is open-ended; for graph
construction only the declared slot list of a node matters). -/
inductive NodeKind where
  | add
  | sub
  | mul
  | div
  | attr (a : Attribute)
  | time
  | normalize
  | custom (defs : List SlotDef)
deriving DecidableEq

/-- Is this one of the seven shipped node variants (not a stand-in for an
external `Node` implementor)? -/
def NodeKind.is_shipped : NodeKind → Bool
  | .custom _ => false
  | _ => true

/-- Embeds `Node::slots` for each variant, from the `Default` impls in the
source.  Note `NormalizeNode::default()` declares BOTH its slots with
`SlotDef::output` — this is the source text, preserved exactly. -/
def NodeKind.slots : NodeKind → List SlotDef
  | .add => [SlotDef.input "lhs" none, SlotDef.input "rhs" none, SlotDef.output "result" none]
  | .sub => [SlotDef.input "lhs" none, SlotDef.input "rhs" none, SlotDef.output "result" none]
  | .mul => [SlotDef.input "lhs" none, SlotDef.input "rhs" none, SlotDef.output "result" none]
  | .div => [SlotDef.input "lhs" none, SlotDef.input "rhs" none, SlotDef.output "result" none]
  | .attr a => [SlotDef.output a.name (some a.value_type)]
  | .time =>
      [SlotDef.output BuiltInOperator.Time.name (some BuiltInOperator.Time.value_type),
       SlotDef.output BuiltInOperator.DeltaTime.name (some BuiltInOperator.DeltaTime.value_type)]
  | .normalize => [SlotDef.output "in" none, SlotDef.output "out" none]
  | .custom defs => defs

/-- Embeds `Node::eval` for each shipped variant, from the source.  The `&mut
Module` of the source becomes explicit state passing: the result carries
the (possibly extended) builder next to the `Result`.  The `custom`
stand-in is not a shipped variant and is given a bare error; no claim is
about it. -/
def NodeKind.eval : NodeKind → Module → List ExprHandle → Module × Except ExprError (List ExprHandle)
  | .add, m, inputs =>
    match inputs with
    | [left, right] =>
      let p := m.add left right
      (p.1, Except.ok [p.2])
    | _ =>
      (m, Except.error (ExprError.GraphEvalError
        ("Unexpected input count to AddNode::eval(): expected 2, got " ++ toString inputs.length)))
  | .sub, m, inputs =>
    match inputs with
    | [left, right] =>
      let p := m.sub left right
      (p.1, Except.ok [p.2])
    | _ =>
      (m, Except.error (ExprError.GraphEvalError
        ("Unexpected input count to SubNode::eval(): expected 2, got " ++ toString inputs.length)))
  | .mul, m, inputs =>
    match inputs with
    | [left, right] =>
      let p := m.mul left right
      (p.1, Except.ok [p.2])
    | _ =>
      (m, Except.error (ExprError.GraphEvalError
        ("Unexpected input count to MulNode::eval(): expected 2, got " ++ toString inputs.length)))
  | .div, m, inputs =>
    match inputs with
    | [left, right] =>
      let p := m.div left right
      (p.1, Except.ok [p.2])
    | _ =>
      (m, Except.error (ExprError.GraphEvalError
        ("Unexpected input count to DivNode::eval(): expected 2, got " ++ toString inputs.length)))
  | .attr a, m, inputs =>
    match inputs with
    | [] =>
      let p := m.attr a
      (p.1, Except.ok [p.2])
    | _ =>
      (m, Except.error (ExprError.GraphEvalError
        "Unexpected non-empty input to AttributeNode::eval()."))
  | .time, m, inputs =>
    match inputs with
    | [] =>
      let p1 := m.builtin BuiltInOperator.Time
      let p2 := p1.1.builtin BuiltInOperator.DeltaTime
      (p2.1, Except.ok [p1.2, p2.2])
    | _ =>
      (m, Except.error (ExprError.GraphEvalError
        "Unexpected non-empty input to TimeNode::eval()."))
  | .normalize, m, inputs =>
    match inputs with
    | [input] =>
      let p := m.normalize input
      (p.1, Except.ok [p.2])
    | _ =>
      (m, Except.error (ExprError.GraphEvalError
        "Unexpected input slot count to NormalizeNode::eval() not equal to one."))
  | .custom _, m, _ =>
    (m, Except.error (ExprError.GraphEvalError "custom node stand-in"))

/-- The input arity each shipped variant checks in its `eval` body:
2 for the binary arithmetic nodes, 0 for attribute and time, 1 for
normalize. -/
def NodeKind.evalArity : NodeKind → Nat
  | .add => 2
  | .sub => 2
  | .mul => 2
  | .div => 2
  | .attr _ => 0
  | .time => 0
  | .normalize => 1
  | .custom _ => 0

/-- Effect graph (`Graph`): two growable arenas, nodes and slots. -/
structure Graph where
  nodes : List NodeKind
  slots : List Slot
deriving DecidableEq

/-- Embeds `Graph::new`: the empty graph. -/
def Graph.new : Graph := { nodes := [], slots := [] }

/-- Embeds `Graph::get_slot`, embedded fallibly: the in-range assertion of the
source becomes `none` out of range. -/
def Graph.getSlot (g : Graph) (id : SlotId) : Option Slot :=
  g.slots[id.index]?

/-- Replace the slot stored at the index of `id` (the write-back half of
`Graph::get_slot_mut`). -/
def Graph.setSlot (g : Graph) (id : SlotId) (s : Slot) : Graph :=
  { g with slots := g.slots.set id.index s }

/-- Read-modify-write of the slot addressed by `id` (how the source uses
`Graph::get_slot_mut`). -/
def Graph.updateSlot (g : Graph) (id : SlotId) (f : Slot → Slot) : Graph :=
  match g.getSlot id with
  | none => g
  | some s => g.setSlot id (f s)

/-- The slot-materialization loop of `Graph::add_node_impl`: one `Slot`
per `SlotDef`, with one-based ids continuing from `base` (the current
length of the slot arena). -/
def mkSlots (node_id : NodeId) (base : Nat) : List SlotDef → List Slot
  | [] => []
  | d :: rest =>
    Slot.new node_id ⟨base + 1, Nat.succ_pos base⟩ d :: mkSlots node_id (base + 1) rest

/-- Embeds `Graph::add_node` / `add_node_impl`: append the node, eagerly
materialize its declared slots into the shared arena, return the new
graph and the new `NodeId`. -/
def Graph.add_node (g : Graph) (node : NodeKind) : Graph × NodeId :=
  let node_id : NodeId := ⟨g.nodes.length + 1, Nat.succ_pos _⟩
  ({ nodes := g.nodes ++ [node],
     slots := g.slots ++ mkSlots node_id g.slots.length node.slots }, node_id)

/-- Embeds `Graph::link`: append `input` to the link list of the output slot
(idempotently), then set the single link of the input slot to `output`
(silently replacing any previous source). -/
def Graph.link (g : Graph) (output input : SlotId) : Graph :=
  (g.updateSlot output (fun s => s.link_to input)).updateSlot input
    (fun s => s.link_input output)

/-- Embeds `Graph::unlink`: remove the edge only if the output currently lists
the input; only then also clear the input side. -/
def Graph.unlink (g : Graph) (output input : SlotId) : Graph :=
  match g.getSlot output with
  | none => g
  | some out_slot =>
    let r := out_slot.unlink_from input
    let g1 := g.setSlot output r.1
    if r.2 then g1.updateSlot input Slot.unlink_input else g1

/-- The loop body of `Graph::unlink_all`: clear a remote end, as an input
(clear its single link) or as an output (remove `from_id` from its list). -/
def Graph.clearRemote (from_id : SlotId) (g : Graph) (remote_id : SlotId) : Graph :=
  match g.getSlot remote_id with
  | none => g
  | some remote_slot =>
    if remote_slot.is_input then g.setSlot remote_id remote_slot.unlink_input
    else g.setSlot remote_id (remote_slot.unlink_from from_id).1

/-- Embeds `Graph::unlink_all`: take the link list of `slot_id` (leaving it
empty, as `mem::take` does), then clear each remote end. -/
def Graph.unlink_all (g : Graph) (slot_id : SlotId) : Graph :=
  match g.getSlot slot_id with
  | none => g
  | some s =>
    let g1 := g.setSlot slot_id { s with linked_slots := [] }
    s.linked_slots.foldl (Graph.clearRemote slot_id) g1

/-- Embeds `Graph::input_slots`: ids of the input slots of a node, in arena
(creation) order. -/
def Graph.input_slots (g : Graph) (node_id : NodeId) : List SlotId :=
  (g.slots.filter (fun s => s.node_id == node_id && s.is_input)).map Slot.id

/-- Embeds `Graph::output_slots`: ids of the output slots of a node, in arena
(creation) order. -/
def Graph.output_slots (g : Graph) (node_id : NodeId) : List SlotId :=
  (g.slots.filter (fun s => s.node_id == node_id && s.is_output)).map Slot.id

/-- Does `id` resolve to an output-direction slot?  (The assertion
`out_slot.is_output()` of the source.) -/
def Graph.isOutputSlot (g : Graph) (id : SlotId) : Bool :=
  match g.getSlot id with
  | some s => s.is_output
  | none => false

/-- Does `id` resolve to an input-direction slot?  (The assertion
`in_slot.is_input()` of the source.) -/
def Graph.isInputSlot (g : Graph) (id : SlotId) : Bool :=
  match g.getSlot id with
  | some s => s.is_input
  | none => false

/-- Does `id` resolve to a slot at all?  (The in-range assertion of
`Graph::get_slot_mut`.) -/
def Graph.hasSlot (g : Graph) (id : SlotId) : Bool :=
  (g.getSlot id).isSome

/-- Graph states reachable from the empty graph by the public mutations.
The direction and in-range side conditions are exactly the assertions the
source requires for the call not to panic. -/
inductive Reachable : Graph → Prop where
  | empty : Reachable Graph.new
  | add_node (g : Graph) (n : NodeKind) :
      Reachable g → Reachable (g.add_node n).1
  | link (g : Graph) (o i : SlotId) :
      Reachable g → g.isOutputSlot o = true → g.isInputSlot i = true →
      Reachable (g.link o i)
  | unlink (g : Graph) (o i : SlotId) :
      Reachable g → g.isOutputSlot o = true → g.isInputSlot i = true →
      Reachable (g.unlink o i)
  | unlink_all (g : Graph) (s : SlotId) :
      Reachable g → g.hasSlot s = true → Reachable (g.unlink_all s)

/-- The cross-consistency property claimed by the spec: an output slot
lists an input slot exactly when the single link of that input slot is the
output. -/
def Graph.cross_consistent (g : Graph) : Prop :=
  ∀ so ∈ g.slots, so.is_output = true → ∀ si ∈ g.slots, si.is_input = true →
    (si.id ∈ so.linked_slots ↔ si.linked_slots = [so.id])

instance (g : Graph) : Decidable g.cross_consistent := by
  unfold Graph.cross_consistent
  infer_instance

/-! ## Small facts about slots and directions -/

theorem Slot.is_input_iff {s : Slot} : s.is_input = true ↔ s.dir = SlotDir.Input := by
  simp [Slot.is_input]

theorem Slot.is_output_iff {s : Slot} : s.is_output = true ↔ s.dir = SlotDir.Output := by
  simp [Slot.is_output]

theorem Slot.not_input_of_output {s : Slot} (h : s.is_output = true) : s.is_input = false := by
  rw [Slot.is_output_iff] at h
  simp [Slot.is_input, h]

theorem Slot.not_output_of_input {s : Slot} (h : s.is_input = true) : s.is_output = false := by
  rw [Slot.is_input_iff] at h
  simp [Slot.is_output, h]

theorem Slot.sdef_link_to (s : Slot) (i : SlotId) : (s.link_to i).sdef = s.sdef := by
  unfold Slot.link_to
  split <;> rfl

theorem Slot.id_link_to (s : Slot) (i : SlotId) : (s.link_to i).id = s.id := by
  unfold Slot.link_to
  split <;> rfl

theorem Slot.node_id_link_to (s : Slot) (i : SlotId) : (s.link_to i).node_id = s.node_id := by
  unfold Slot.link_to
  split <;> rfl

theorem Slot.dir_link_to (s : Slot) (i : SlotId) : (s.link_to i).dir = s.dir := by
  simp [Slot.dir, Slot.sdef_link_to]

theorem Slot.linked_link_to (s : Slot) (i : SlotId) :
    (s.link_to i).linked_slots =
      if i ∈ s.linked_slots then s.linked_slots else s.linked_slots ++ [i] := by
  unfold Slot.link_to
  split <;> simp_all

theorem Slot.mem_link_to_self (s : Slot) (i : SlotId) : i ∈ (s.link_to i).linked_slots := by
  rw [Slot.linked_link_to]
  split <;> simp_all

theorem Slot.mem_link_to_of_mem {s : Slot} {t : SlotId} (i : SlotId)
    (h : t ∈ s.linked_slots) : t ∈ (s.link_to i).linked_slots := by
  rw [Slot.linked_link_to]
  split <;> simp_all

theorem Slot.mem_of_mem_link_to {s : Slot} {t i : SlotId}
    (h : t ∈ (s.link_to i).linked_slots) : t ∈ s.linked_slots ∨ t = i := by
  rw [Slot.linked_link_to] at h
  split at h <;> simp_all

theorem Slot.sdef_unlink_from (s : Slot) (i : SlotId) : (s.unlink_from i).1.sdef = s.sdef := by
  unfold Slot.unlink_from
  split <;> rfl

theorem Slot.id_unlink_from (s : Slot) (i : SlotId) : (s.unlink_from i).1.id = s.id := by
  unfold Slot.unlink_from
  split <;> rfl

theorem Slot.node_id_unlink_from (s : Slot) (i : SlotId) :
    (s.unlink_from i).1.node_id = s.node_id := by
  unfold Slot.unlink_from
  split <;> rfl

theorem Slot.dir_unlink_from (s : Slot) (i : SlotId) : (s.unlink_from i).1.dir = s.dir := by
  simp [Slot.dir, Slot.sdef_unlink_from]

theorem Slot.linked_unlink_from (s : Slot) (i : SlotId) :
    (s.unlink_from i).1.linked_slots = s.linked_slots.erase i := by
  unfold Slot.unlink_from
  split
  · rfl
  · simp only []
    rw [List.erase_of_not_mem (by assumption)]

theorem Slot.unlink_from_snd (s : Slot) (i : SlotId) :
    (s.unlink_from i).2 = (i ∈ s.linked_slots : Bool) := by
  unfold Slot.unlink_from
  split <;> simp_all

theorem Slot.sdef_link_input (s : Slot) (o : SlotId) : (s.link_input o).sdef = s.sdef := by
  unfold Slot.link_input
  split <;> rfl

theorem Slot.id_link_input (s : Slot) (o : SlotId) : (s.link_input o).id = s.id := by
  unfold Slot.link_input
  split <;> rfl

theorem Slot.node_id_link_input (s : Slot) (o : SlotId) :
    (s.link_input o).node_id = s.node_id := by
  unfold Slot.link_input
  split <;> rfl

theorem Slot.dir_link_input (s : Slot) (o : SlotId) : (s.link_input o).dir = s.dir := by
  simp [Slot.dir, Slot.sdef_link_input]

theorem Slot.linked_link_input (s : Slot) (o : SlotId) :
    (s.link_input o).linked_slots =
      match s.linked_slots with
      | [] => [o]
      | _ :: rest => o :: rest := by
  unfold Slot.link_input
  split <;> simp_all

theorem Slot.sdef_unlink_input (s : Slot) : s.unlink_input.sdef = s.sdef := rfl

theorem Slot.id_unlink_input (s : Slot) : s.unlink_input.id = s.id := rfl

theorem Slot.dir_unlink_input (s : Slot) : s.unlink_input.dir = s.dir := rfl

theorem Slot.linked_unlink_input (s : Slot) : s.unlink_input.linked_slots = [] := rfl

/-! ## Get/set lemmas for the slot arena -/

theorem list_set_self {α : Type} : ∀ (l : List α) (n : Nat) (a : α),
    l[n]? = some a → l.set n a = l
  | [], n, a, h => by simp at h
  | x :: xs, 0, a, h => by
    simp at h
    simp [h]
  | x :: xs, n + 1, a, h => by
    simp at h
    simp [list_set_self xs n a h]

theorem Graph.length_setSlot (g : Graph) (id : SlotId) (s : Slot) :
    (g.setSlot id s).slots.length = g.slots.length := by
  simp [Graph.setSlot]

theorem Graph.getSlot_lt {g : Graph} {id : SlotId} {s : Slot}
    (h : g.getSlot id = some s) : id.index < g.slots.length := by
  unfold Graph.getSlot at h
  exact (List.getElem?_eq_some.mp h).1

theorem Graph.getSlot_setSlot_self {g : Graph} {id : SlotId} (s : Slot)
    (h : id.index < g.slots.length) : (g.setSlot id s).getSlot id = some s := by
  unfold Graph.getSlot Graph.setSlot
  simp [List.getElem?_set_self h]

theorem Graph.getSlot_setSlot_ne {g : Graph} {id t : SlotId} (s : Slot)
    (h : t ≠ id) : (g.setSlot id s).getSlot t = g.getSlot t := by
  unfold Graph.getSlot Graph.setSlot
  have : id.index ≠ t.index := fun hh => h (SlotId.index_inj hh.symm)
  simp [List.getElem?_set_ne this]

theorem Graph.setSlot_self {g : Graph} {id : SlotId} {s : Slot}
    (h : g.getSlot id = some s) : g.setSlot id s = g := by
  unfold Graph.getSlot at h
  unfold Graph.setSlot
  cases g
  simp [list_set_self _ _ _ h]

theorem Graph.updateSlot_of_none {g : Graph} {id : SlotId} (f : Slot → Slot)
    (h : g.getSlot id = none) : g.updateSlot id f = g := by
  unfold Graph.updateSlot
  rw [h]

theorem Graph.getSlot_updateSlot_self {g : Graph} {id : SlotId} {s : Slot} (f : Slot → Slot)
    (h : g.getSlot id = some s) : (g.updateSlot id f).getSlot id = some (f s) := by
  unfold Graph.updateSlot
  rw [h]
  exact Graph.getSlot_setSlot_self _ (Graph.getSlot_lt h)

theorem Graph.getSlot_updateSlot_ne {g : Graph} {id t : SlotId} (f : Slot → Slot)
    (h : t ≠ id) : (g.updateSlot id f).getSlot t = g.getSlot t := by
  unfold Graph.updateSlot
  cases hid : g.getSlot id
  · rfl
  · exact Graph.getSlot_setSlot_ne _ h

theorem Graph.length_updateSlot (g : Graph) (id : SlotId) (f : Slot → Slot) :
    (g.updateSlot id f).slots.length = g.slots.length := by
  unfold Graph.updateSlot
  cases hid : g.getSlot id
  · rfl
  · exact Graph.length_setSlot ..

/-! ## Characterization of the public mutations -/

theorem Graph.link_getSlot_out {g : Graph} {o i : SlotId} {so : Slot}
    (ho : g.getSlot o = some so) (hne : o ≠ i) :
    (g.link o i).getSlot o = some (so.link_to i) := by
  unfold Graph.link
  rw [Graph.getSlot_updateSlot_ne _ hne]
  exact Graph.getSlot_updateSlot_self _ ho

theorem Graph.link_getSlot_in {g : Graph} {o i : SlotId} {si : Slot}
    (hi : g.getSlot i = some si) (hne : o ≠ i) :
    (g.link o i).getSlot i = some (si.link_input o) := by
  unfold Graph.link
  apply Graph.getSlot_updateSlot_self
  rw [Graph.getSlot_updateSlot_ne _ (fun h => hne h.symm)]
  exact hi

theorem Graph.link_getSlot_other {g : Graph} {o i t : SlotId}
    (hto : t ≠ o) (hti : t ≠ i) :
    (g.link o i).getSlot t = g.getSlot t := by
  unfold Graph.link
  rw [Graph.getSlot_updateSlot_ne _ hti, Graph.getSlot_updateSlot_ne _ hto]

theorem Graph.unlink_getSlot_out {g : Graph} {o i : SlotId} {so : Slot}
    (ho : g.getSlot o = some so) (hne : o ≠ i) :
    (g.unlink o i).getSlot o = some (so.unlink_from i).1 := by
  unfold Graph.unlink
  rw [ho]
  simp only []
  split
  · rw [Graph.getSlot_updateSlot_ne _ hne]
    exact Graph.getSlot_setSlot_self _ (Graph.getSlot_lt ho)
  · exact Graph.getSlot_setSlot_self _ (Graph.getSlot_lt ho)

theorem Graph.unlink_getSlot_in {g : Graph} {o i : SlotId} {so si : Slot}
    (ho : g.getSlot o = some so) (hi : g.getSlot i = some si) (hne : o ≠ i) :
    (g.unlink o i).getSlot i =
      some (if i ∈ so.linked_slots then si.unlink_input else si) := by
  unfold Graph.unlink
  rw [ho]
  simp only [Slot.unlink_from_snd]
  split
  · rename_i hmem
    simp only [decide_eq_true_eq] at hmem
    rw [if_pos hmem]
    apply Graph.getSlot_updateSlot_self
    rw [Graph.getSlot_setSlot_ne _ (fun h => hne h.symm)]
    exact hi
  · rename_i hmem
    simp only [decide_eq_true_eq] at hmem
    rw [if_neg hmem]
    rw [Graph.getSlot_setSlot_ne _ (fun h => hne h.symm)]
    exact hi

theorem Graph.unlink_getSlot_other {g : Graph} {o i t : SlotId}
    (hto : t ≠ o) (hti : t ≠ i) :
    (g.unlink o i).getSlot t = g.getSlot t := by
  unfold Graph.unlink
  cases ho : g.getSlot o
  · rfl
  · simp only []
    split
    · rw [Graph.getSlot_updateSlot_ne _ hti, Graph.getSlot_setSlot_ne _ hto]
    · rw [Graph.getSlot_setSlot_ne _ hto]

theorem Graph.clearRemote_getSlot_ne {g : Graph} {sid r t : SlotId}
    (h : t ≠ r) : (Graph.clearRemote sid g r).getSlot t = g.getSlot t := by
  unfold Graph.clearRemote
  cases hr : g.getSlot r
  · rfl
  · simp only []
    split <;> exact Graph.getSlot_setSlot_ne _ h

theorem Graph.clearRemote_getSlot_self {g : Graph} {sid r : SlotId} {s : Slot}
    (h : g.getSlot r = some s) :
    (Graph.clearRemote sid g r).getSlot r =
      some (if s.is_input then s.unlink_input else (s.unlink_from sid).1) := by
  unfold Graph.clearRemote
  rw [h]
  simp only []
  split <;> exact Graph.getSlot_setSlot_self _ (Graph.getSlot_lt h)

theorem Graph.foldl_clearRemote_getSlot_not_mem {sid t : SlotId} :
    ∀ (L : List SlotId) (g : Graph), t ∉ L →
      (L.foldl (Graph.clearRemote sid) g).getSlot t = g.getSlot t
  | [], g, _ => rfl
  | r :: rest, g, h => by
    have hr : t ≠ r := fun hh => h (hh ▸ List.mem_cons_self r rest)
    have hrest : t ∉ rest := fun hh => h (List.mem_cons_of_mem r hh)
    simp only [List.foldl_cons]
    rw [Graph.foldl_clearRemote_getSlot_not_mem rest _ hrest]
    exact Graph.clearRemote_getSlot_ne hr

theorem Graph.foldl_clearRemote_getSlot_mem {sid t : SlotId} :
    ∀ (L : List SlotId) (g : Graph) (s0 : Slot), L.Nodup → t ∈ L →
      g.getSlot t = some s0 →
      (L.foldl (Graph.clearRemote sid) g).getSlot t =
        some (if s0.is_input then s0.unlink_input else (s0.unlink_from sid).1)
  | [], _, _, _, ht, _ => absurd ht (List.not_mem_nil t)
  | r :: rest, g, s0, hnd, ht, h0 => by
    simp only [List.foldl_cons]
    rcases List.mem_cons.mp ht with hter | htrest
    · subst hter
      have hnot : t ∉ rest := (List.nodup_cons.mp hnd).1
      rw [Graph.foldl_clearRemote_getSlot_not_mem rest _ hnot]
      exact Graph.clearRemote_getSlot_self h0
    · have hnr : t ≠ r := fun hh => (List.nodup_cons.mp hnd).1 (hh ▸ htrest)
      exact Graph.foldl_clearRemote_getSlot_mem rest _ s0 (List.nodup_cons.mp hnd).2 htrest
        ((Graph.clearRemote_getSlot_ne hnr).trans h0)

/-! ## Slots materialized by add_node -/

theorem mkSlots_getElem? (node_id : NodeId) :
    ∀ (defs : List SlotDef) (base k : Nat) (s : Slot),
      (mkSlots node_id base defs)[k]? = some s →
      s.id.val = base + k + 1 ∧ s.linked_slots = [] ∧ s.node_id = node_id
  | [], base, k, s, h => by simp [mkSlots] at h
  | d :: rest, base, 0, s, h => by
    simp [mkSlots] at h
    subst h
    simp [Slot.new]
  | d :: rest, base, k + 1, s, h => by
    simp [mkSlots] at h
    obtain ⟨h1, h2, h3⟩ := mkSlots_getElem? node_id rest (base + 1) k s h
    exact ⟨by omega, h2, h3⟩

theorem Graph.add_node_getSlot_old {g : Graph} {n : NodeKind} {t : SlotId}
    (h : t.index < g.slots.length) :
    (g.add_node n).1.getSlot t = g.getSlot t := by
  unfold Graph.add_node Graph.getSlot
  simp only [List.getElem?_append, h, if_pos]

theorem Graph.add_node_getSlot_new {g : Graph} {n : NodeKind} {t : SlotId} {s : Slot}
    (hge : g.slots.length ≤ t.index)
    (h : (g.add_node n).1.getSlot t = some s) :
    s.id = t ∧ s.linked_slots = [] := by
  unfold Graph.add_node Graph.getSlot at h
  simp only [List.getElem?_append_right hge] at h
  have hm := mkSlots_getElem? _ _ _ _ _ h
  refine ⟨SlotId.sid_val_inj ?_, hm.2.1⟩
  have hp := t.pos
  have hm1 := hm.1
  simp only [SlotId.index] at hge hm1
  omega

/-! ## The reachability invariant

The bundle of structural properties every reachable graph satisfies:
slot ids match arena positions, input slots have at most one link,
output link lists have no duplicates, every recorded link target resolves
to a slot of the opposite direction, and every link recorded on an input
slot is mirrored on the referenced output slot. -/

structure Inv (g : Graph) : Prop where
  ids : ∀ (t : SlotId) (s : Slot), g.getSlot t = some s → s.id = t
  input_len : ∀ (t : SlotId) (s : Slot), g.getSlot t = some s → s.is_input = true →
    s.linked_slots.length ≤ 1
  out_nodup : ∀ (t : SlotId) (s : Slot), g.getSlot t = some s → s.is_output = true →
    s.linked_slots.Nodup
  targets : ∀ (t : SlotId) (s : Slot), g.getSlot t = some s → ∀ r ∈ s.linked_slots,
    ∃ s2, g.getSlot r = some s2 ∧ s2.dir ≠ s.dir
  forward : ∀ (t : SlotId) (s : Slot), g.getSlot t = some s → s.is_input = true →
    ∀ r ∈ s.linked_slots, ∃ s2, g.getSlot r = some s2 ∧ t ∈ s2.linked_slots

theorem nodup_of_length_le_one {α : Type} {l : List α} (h : l.length ≤ 1) : l.Nodup := by
  match l, h with
  | [], _ => exact List.nodup_nil
  | [a], _ => exact List.nodup_singleton a

/-- In an invariant-satisfying graph every link list is duplicate-free,
whatever the slot direction. -/
theorem Inv.linked_nodup {g : Graph} (hg : Inv g) {t : SlotId} {s : Slot}
    (h : g.getSlot t = some s) : s.linked_slots.Nodup := by
  cases hd : s.dir
  · exact nodup_of_length_le_one (hg.input_len t s h (Slot.is_input_iff.mpr hd))
  · exact hg.out_nodup t s h (Slot.is_output_iff.mpr hd)

/-- A slot never appears in its own link list (its targets have the
opposite direction). -/
theorem Inv.not_self_linked {g : Graph} (hg : Inv g) {t : SlotId} {s : Slot}
    (h : g.getSlot t = some s) : t ∉ s.linked_slots := by
  intro hm
  obtain ⟨s2, h2, hd⟩ := hg.targets t s h t hm
  rw [h] at h2
  injection h2 with h2
  exact hd (congrArg Slot.dir h2.symm)

theorem Inv.empty : Inv Graph.new := by
  constructor <;> intro t s h <;> simp [Graph.new, Graph.getSlot] at h

theorem Inv.add_node {g : Graph} (hg : Inv g) (n : NodeKind) : Inv (g.add_node n).1 := by
  have hold : ∀ (t : SlotId), t.index < g.slots.length →
      (g.add_node n).1.getSlot t = g.getSlot t := fun t ht => Graph.add_node_getSlot_old ht
  constructor
  · intro t s h
    by_cases hlt : t.index < g.slots.length
    · exact hg.ids t s ((hold t hlt) ▸ h)
    · exact (Graph.add_node_getSlot_new (Nat.le_of_not_lt hlt) h).1
  · intro t s h hin
    by_cases hlt : t.index < g.slots.length
    · exact hg.input_len t s ((hold t hlt) ▸ h) hin
    · rw [(Graph.add_node_getSlot_new (Nat.le_of_not_lt hlt) h).2]
      simp
  · intro t s h hout
    by_cases hlt : t.index < g.slots.length
    · exact hg.out_nodup t s ((hold t hlt) ▸ h) hout
    · rw [(Graph.add_node_getSlot_new (Nat.le_of_not_lt hlt) h).2]
      exact List.nodup_nil
  · intro t s h r hr
    by_cases hlt : t.index < g.slots.length
    · obtain ⟨s2, h2, hd⟩ := hg.targets t s ((hold t hlt) ▸ h) r hr
      exact ⟨s2, (hold r (Graph.getSlot_lt h2)) ▸ h2, hd⟩
    · rw [(Graph.add_node_getSlot_new (Nat.le_of_not_lt hlt) h).2] at hr
      exact absurd hr (List.not_mem_nil r)
  · intro t s h hin r hr
    by_cases hlt : t.index < g.slots.length
    · obtain ⟨s2, h2, hm⟩ := hg.forward t s ((hold t hlt) ▸ h) hin r hr
      exact ⟨s2, (hold r (Graph.getSlot_lt h2)) ▸ h2, hm⟩
    · rw [(Graph.add_node_getSlot_new (Nat.le_of_not_lt hlt) h).2] at hr
      exact absurd hr (List.not_mem_nil r)

/-- The direction (and identity, and definition) of every slot survives
any relinking: only link lists ever change. -/
def Graph.dirPreserved (g g2 : Graph) : Prop :=
  ∀ (r : SlotId) (s : Slot), g.getSlot r = some s →
    ∃ s2, g2.getSlot r = some s2 ∧ s2.dir = s.dir

theorem Graph.link_ne {g : Graph} {o i : SlotId} {so si : Slot}
    (ho : g.getSlot o = some so) (hso : so.is_output = true)
    (hi : g.getSlot i = some si) (hsi : si.is_input = true) : o ≠ i := by
  intro h
  subst h
  rw [ho] at hi
  injection hi with hi
  subst hi
  rw [Slot.not_input_of_output hso] at hsi
  exact Bool.false_ne_true hsi

theorem Graph.link_dirPreserved {g : Graph} {o i : SlotId} {so si : Slot}
    (ho : g.getSlot o = some so) (hi : g.getSlot i = some si) (hne : o ≠ i) :
    Graph.dirPreserved g (g.link o i) := by
  intro r s h
  by_cases hro : r = o
  · subst hro
    rw [ho] at h
    injection h with h
    subst h
    exact ⟨so.link_to i, Graph.link_getSlot_out ho hne, Slot.dir_link_to ..⟩
  · by_cases hri : r = i
    · subst hri
      rw [hi] at h
      injection h with h
      subst h
      exact ⟨si.link_input o, Graph.link_getSlot_in hi hne, Slot.dir_link_input ..⟩
    · exact ⟨s, (Graph.link_getSlot_other hro hri).trans h, rfl⟩

theorem Inv.link {g : Graph} (hg : Inv g) {o i : SlotId} {so si : Slot}
    (ho : g.getSlot o = some so) (hso : so.is_output = true)
    (hi : g.getSlot i = some si) (hsi : si.is_input = true) : Inv (g.link o i) := by
  have hne : o ≠ i := Graph.link_ne ho hso hi hsi
  have hgo := Graph.link_getSlot_out ho hne
  have hgi := Graph.link_getSlot_in hi hne
  have hdp := Graph.link_dirPreserved ho hi hne
  -- case split on where a slot of the new graph sits
  have hcases : ∀ (t : SlotId) (s : Slot), (g.link o i).getSlot t = some s →
      (t = o ∧ s = so.link_to i) ∨ (t = i ∧ s = si.link_input o) ∨
      (t ≠ o ∧ t ≠ i ∧ g.getSlot t = some s) := by
    intro t s h
    by_cases hto : t = o
    · subst hto
      rw [hgo] at h
      injection h with h
      exact Or.inl ⟨rfl, h.symm⟩
    · by_cases hti : t = i
      · subst hti
        rw [hgi] at h
        injection h with h
        exact Or.inr (Or.inl ⟨rfl, h.symm⟩)
      · exact Or.inr (Or.inr ⟨hto, hti, (Graph.link_getSlot_other hto hti).symm.trans h⟩)
  constructor
  · intro t s h
    rcases hcases t s h with ⟨ht, hs⟩ | ⟨ht, hs⟩ | ⟨_, _, hold⟩
    · subst hs
      rw [ht, Slot.id_link_to]
      exact hg.ids o so ho
    · subst hs
      rw [ht, Slot.id_link_input]
      exact hg.ids i si hi
    · exact hg.ids t s hold
  · intro t s h hin
    rcases hcases t s h with ⟨ht, hs⟩ | ⟨ht, hs⟩ | ⟨_, _, hold⟩
    · subst hs
      rw [Slot.is_input_iff, Slot.dir_link_to, ← Slot.is_input_iff,
        Slot.not_input_of_output hso] at hin
      exact absurd hin Bool.false_ne_true
    · subst hs
      rw [Slot.linked_link_input]
      have hlen := hg.input_len i si hi hsi
      cases hsl : si.linked_slots with
      | nil => simp
      | cons x rest =>
        rw [hsl] at hlen
        simpa using hlen
    · exact hg.input_len t s hold hin
  · intro t s h hout
    rcases hcases t s h with ⟨ht, hs⟩ | ⟨ht, hs⟩ | ⟨_, _, hold⟩
    · subst hs
      rw [Slot.linked_link_to]
      split
      · exact hg.out_nodup o so ho hso
      · rename_i hnm
        simp [List.nodup_append, hnm, hg.out_nodup o so ho hso]
    · subst hs
      rw [Slot.is_output_iff, Slot.dir_link_input, ← Slot.is_output_iff,
        Slot.not_output_of_input hsi] at hout
      exact absurd hout Bool.false_ne_true
    · exact hg.out_nodup t s hold hout
  · intro t s h r hr
    rcases hcases t s h with ⟨ht, hs⟩ | ⟨ht, hs⟩ | ⟨_, _, hold⟩
    · subst hs
      rw [Slot.dir_link_to]
      rcases Slot.mem_of_mem_link_to hr with hmem | hre
      · obtain ⟨s2, h2, hd⟩ := hg.targets o so ho r hmem
        obtain ⟨s3, h3, hd3⟩ := hdp r s2 h2
        exact ⟨s3, h3, hd3 ▸ hd⟩
      · subst hre
        refine ⟨si.link_input o, hgi, ?_⟩
        rw [Slot.dir_link_input, Slot.is_input_iff.mp hsi, Slot.is_output_iff.mp hso]
        simp
    · subst hs
      rw [Slot.dir_link_input]
      rw [Slot.linked_link_input] at hr
      have : r = o ∨ r ∈ si.linked_slots := by
        cases hsl : si.linked_slots with
        | nil =>
          rw [hsl] at hr
          simp at hr
          exact Or.inl hr
        | cons x rest =>
          rw [hsl] at hr
          simp at hr
          rcases hr with hr | hr
          · exact Or.inl hr
          · exact Or.inr (hsl ▸ List.mem_cons_of_mem x hr)
      rcases this with hre | hmem
      · subst hre
        refine ⟨so.link_to i, hgo, ?_⟩
        rw [Slot.dir_link_to, Slot.is_input_iff.mp hsi, Slot.is_output_iff.mp hso]
        simp
      · obtain ⟨s2, h2, hd⟩ := hg.targets i si hi r hmem
        obtain ⟨s3, h3, hd3⟩ := hdp r s2 h2
        exact ⟨s3, h3, hd3 ▸ hd⟩
    · obtain ⟨s2, h2, hd⟩ := hg.targets t s hold r hr
      obtain ⟨s3, h3, hd3⟩ := hdp r s2 h2
      exact ⟨s3, h3, hd3 ▸ hd⟩
  · intro t s h hin r hr
    rcases hcases t s h with ⟨ht, hs⟩ | ⟨ht, hs⟩ | ⟨hto, hti, hold⟩
    · subst hs
      rw [Slot.is_input_iff, Slot.dir_link_to, ← Slot.is_input_iff,
        Slot.not_input_of_output hso] at hin
      exact absurd hin Bool.false_ne_true
    · subst hs
      rw [ht]
      rw [Slot.linked_link_input] at hr
      have : r = o ∨ r ∈ si.linked_slots := by
        cases hsl : si.linked_slots with
        | nil =>
          rw [hsl] at hr
          simp at hr
          exact Or.inl hr
        | cons x rest =>
          rw [hsl] at hr
          simp at hr
          rcases hr with hr | hr
          · exact Or.inl hr
          · exact Or.inr (hsl ▸ List.mem_cons_of_mem x hr)
      rcases this with hre | hmem
      · subst hre
        exact ⟨so.link_to i, hgo, Slot.mem_link_to_self ..⟩
      · obtain ⟨s2, h2, hm⟩ := hg.forward i si hi hsi r hmem
        obtain ⟨s2d, h2d, hdd⟩ := hg.targets i si hi r hmem
        rw [h2] at h2d
        injection h2d with h2d
        subst h2d
        have hri : r ≠ i := by
          intro hre
          subst hre
          rw [h2] at hi
          injection hi with hi
          subst hi
          exact hdd rfl
        by_cases hro : r = o
        · subst hro
          rw [h2] at ho
          injection ho with ho
          subst ho
          exact ⟨s2.link_to i, hgo, Slot.mem_link_to_of_mem i hm⟩
        · exact ⟨s2, (Graph.link_getSlot_other hro hri).trans h2, hm⟩
    · obtain ⟨s2, h2, hm⟩ := hg.forward t s hold hin r hr
      obtain ⟨s2d, h2d, hdd⟩ := hg.targets t s hold r hr
      rw [h2] at h2d
      injection h2d with h2d
      subst h2d
      have hri : r ≠ i := by
        intro hre
        subst hre
        rw [h2] at hi
        injection hi with hi
        subst hi
        rw [Slot.is_input_iff.mp hsi, Slot.is_input_iff.mp hin] at hdd
        exact hdd rfl
      by_cases hro : r = o
      · subst hro
        rw [h2] at ho
        injection ho with ho
        subst ho
        exact ⟨s2.link_to i, hgo, Slot.mem_link_to_of_mem i hm⟩
      · exact ⟨s2, (Graph.link_getSlot_other hro hri).trans h2, hm⟩

theorem Graph.unlink_dirPreserved {g : Graph} {o i : SlotId} {so si : Slot}
    (ho : g.getSlot o = some so) (hi : g.getSlot i = some si) (hne : o ≠ i) :
    Graph.dirPreserved g (g.unlink o i) := by
  intro r s h
  by_cases hro : r = o
  · subst hro
    rw [ho] at h
    injection h with h
    subst h
    exact ⟨(so.unlink_from i).1, Graph.unlink_getSlot_out ho hne, Slot.dir_unlink_from ..⟩
  · by_cases hri : r = i
    · subst hri
      rw [hi] at h
      injection h with h
      subst h
      refine ⟨_, Graph.unlink_getSlot_in ho hi hne, ?_⟩
      split <;> rfl
    · exact ⟨s, (Graph.unlink_getSlot_other hro hri).trans h, rfl⟩

theorem Inv.unlink {g : Graph} (hg : Inv g) {o i : SlotId} {so si : Slot}
    (ho : g.getSlot o = some so) (hso : so.is_output = true)
    (hi : g.getSlot i = some si) (hsi : si.is_input = true) : Inv (g.unlink o i) := by
  have hne : o ≠ i := Graph.link_ne ho hso hi hsi
  have hgo := Graph.unlink_getSlot_out ho hne
  have hgi := Graph.unlink_getSlot_in ho hi hne
  have hdp := Graph.unlink_dirPreserved ho hi hne
  have hcases : ∀ (t : SlotId) (s : Slot), (g.unlink o i).getSlot t = some s →
      (t = o ∧ s = (so.unlink_from i).1) ∨
      (t = i ∧ s = (if i ∈ so.linked_slots then si.unlink_input else si)) ∨
      (t ≠ o ∧ t ≠ i ∧ g.getSlot t = some s) := by
    intro t s h
    by_cases hto : t = o
    · subst hto
      rw [hgo] at h
      injection h with h
      exact Or.inl ⟨rfl, h.symm⟩
    · by_cases hti : t = i
      · subst hti
        rw [hgi] at h
        injection h with h
        exact Or.inr (Or.inl ⟨rfl, h.symm⟩)
      · exact Or.inr (Or.inr ⟨hto, hti, (Graph.unlink_getSlot_other hto hti).symm.trans h⟩)
  constructor
  · intro t s h
    rcases hcases t s h with ⟨ht, hs⟩ | ⟨ht, hs⟩ | ⟨_, _, hold⟩
    · subst hs
      rw [ht, Slot.id_unlink_from]
      exact hg.ids o so ho
    · subst hs
      rw [ht]
      split
      · rw [Slot.id_unlink_input]
        exact hg.ids i si hi
      · exact hg.ids i si hi
    · exact hg.ids t s hold
  · intro t s h hin
    rcases hcases t s h with ⟨ht, hs⟩ | ⟨ht, hs⟩ | ⟨_, _, hold⟩
    · subst hs
      rw [Slot.is_input_iff, Slot.dir_unlink_from, ← Slot.is_input_iff,
        Slot.not_input_of_output hso] at hin
      exact absurd hin Bool.false_ne_true
    · subst hs
      split
      · simp [Slot.linked_unlink_input]
      · exact hg.input_len i si hi hsi
    · exact hg.input_len t s hold hin
  · intro t s h hout
    rcases hcases t s h with ⟨ht, hs⟩ | ⟨ht, hs⟩ | ⟨_, _, hold⟩
    · subst hs
      rw [Slot.linked_unlink_from]
      exact List.Nodup.erase i (hg.out_nodup o so ho hso)
    · subst hs
      split at hout
      · rw [Slot.is_output_iff, Slot.dir_unlink_input, ← Slot.is_output_iff,
          Slot.not_output_of_input hsi] at hout
        exact absurd hout Bool.false_ne_true
      · rw [Slot.not_output_of_input hsi] at hout
        exact absurd hout Bool.false_ne_true
    · exact hg.out_nodup t s hold hout
  · intro t s h r hr
    rcases hcases t s h with ⟨ht, hs⟩ | ⟨ht, hs⟩ | ⟨_, _, hold⟩
    · subst hs
      rw [Slot.dir_unlink_from]
      rw [Slot.linked_unlink_from] at hr
      have hmem : r ∈ so.linked_slots := List.erase_subset i so.linked_slots hr
      obtain ⟨s2, h2, hd⟩ := hg.targets o so ho r hmem
      obtain ⟨s3, h3, hd3⟩ := hdp r s2 h2
      exact ⟨s3, h3, hd3 ▸ hd⟩
    · subst hs
      have hdif : (if i ∈ so.linked_slots then si.unlink_input else si).dir = si.dir := by
        split <;> rfl
      rw [hdif]
      split at hr
      · rw [Slot.linked_unlink_input] at hr
        exact absurd hr (List.not_mem_nil r)
      · obtain ⟨s2, h2, hd⟩ := hg.targets i si hi r hr
        obtain ⟨s3, h3, hd3⟩ := hdp r s2 h2
        exact ⟨s3, h3, hd3 ▸ hd⟩
    · obtain ⟨s2, h2, hd⟩ := hg.targets t s hold r hr
      obtain ⟨s3, h3, hd3⟩ := hdp r s2 h2
      exact ⟨s3, h3, hd3 ▸ hd⟩
  · intro t s h hin r hr
    rcases hcases t s h with ⟨ht, hs⟩ | ⟨ht, hs⟩ | ⟨hto, hti, hold⟩
    · subst hs
      rw [Slot.is_input_iff, Slot.dir_unlink_from, ← Slot.is_input_iff,
        Slot.not_input_of_output hso] at hin
      exact absurd hin Bool.false_ne_true
    · subst hs
      rw [ht]
      split at hr
      · rw [Slot.linked_unlink_input] at hr
        exact absurd hr (List.not_mem_nil r)
      · rename_i hnm
        obtain ⟨s2, h2, hm⟩ := hg.forward i si hi hsi r hr
        obtain ⟨s2d, h2d, hdd⟩ := hg.targets i si hi r hr
        rw [h2] at h2d
        injection h2d with h2d
        subst h2d
        have hri : r ≠ i := by
          intro hre
          subst hre
          rw [h2] at hi
          injection hi with hi
          subst hi
          exact hdd rfl
        have hro : r ≠ o := by
          intro hre
          subst hre
          rw [h2] at ho
          injection ho with ho
          subst ho
          exact hnm hm
        exact ⟨s2, (Graph.unlink_getSlot_other hro hri).trans h2, hm⟩
    · obtain ⟨s2, h2, hm⟩ := hg.forward t s hold hin r hr
      obtain ⟨s2d, h2d, hdd⟩ := hg.targets t s hold r hr
      rw [h2] at h2d
      injection h2d with h2d
      subst h2d
      have hri : r ≠ i := by
        intro hre
        subst hre
        rw [h2] at hi
        injection hi with hi
        subst hi
        rw [Slot.is_input_iff.mp hsi, Slot.is_input_iff.mp hin] at hdd
        exact hdd rfl
      by_cases hro : r = o
      · subst hro
        rw [h2] at ho
        injection ho with ho
        subst ho
        refine ⟨(s2.unlink_from i).1, hgo, ?_⟩
        rw [Slot.linked_unlink_from]
        exact (List.mem_erase_of_ne hti).mpr hm
      · exact ⟨s2, (Graph.unlink_getSlot_other hro hri).trans h2, hm⟩

theorem Graph.unlink_all_of_none {g : Graph} {sid : SlotId}
    (h : g.getSlot sid = none) : g.unlink_all sid = g := by
  unfold Graph.unlink_all
  rw [h]

theorem Graph.unlink_all_getSlot_center {g : Graph} (hg : Inv g) {sid : SlotId} {s : Slot}
    (hS : g.getSlot sid = some s) :
    (g.unlink_all sid).getSlot sid = some { s with linked_slots := [] } := by
  unfold Graph.unlink_all
  rw [hS]
  simp only []
  rw [Graph.foldl_clearRemote_getSlot_not_mem _ _ (hg.not_self_linked hS)]
  exact Graph.getSlot_setSlot_self _ (Graph.getSlot_lt hS)

theorem Graph.unlink_all_getSlot_remote {g : Graph} (hg : Inv g) {sid r : SlotId} {s sr : Slot}
    (hS : g.getSlot sid = some s) (hr : r ∈ s.linked_slots)
    (hsr : g.getSlot r = some sr) :
    (g.unlink_all sid).getSlot r =
      some (if sr.is_input then sr.unlink_input else (sr.unlink_from sid).1) := by
  have hrs : r ≠ sid := fun h => hg.not_self_linked hS (h ▸ hr)
  unfold Graph.unlink_all
  rw [hS]
  simp only []
  apply Graph.foldl_clearRemote_getSlot_mem _ _ _ (hg.linked_nodup hS) hr
  rw [Graph.getSlot_setSlot_ne _ hrs]
  exact hsr

theorem Graph.unlink_all_getSlot_other {g : Graph} {sid t : SlotId} {s : Slot}
    (hS : g.getSlot sid = some s) (h1 : t ≠ sid) (h2 : t ∉ s.linked_slots) :
    (g.unlink_all sid).getSlot t = g.getSlot t := by
  unfold Graph.unlink_all
  rw [hS]
  simp only []
  rw [Graph.foldl_clearRemote_getSlot_not_mem _ _ h2]
  exact Graph.getSlot_setSlot_ne _ h1

theorem Graph.unlink_all_dirPreserved {g : Graph} (hg : Inv g) (sid : SlotId) :
    Graph.dirPreserved g (g.unlink_all sid) := by
  intro r s h
  cases hS : g.getSlot sid with
  | none =>
    rw [Graph.unlink_all_of_none hS]
    exact ⟨s, h, rfl⟩
  | some sc =>
    by_cases hrs : r = sid
    · subst hrs
      rw [h] at hS
      injection hS with hS
      subst hS
      exact ⟨_, Graph.unlink_all_getSlot_center hg h, rfl⟩
    · by_cases hmem : r ∈ sc.linked_slots
      · refine ⟨_, Graph.unlink_all_getSlot_remote hg hS hmem h, ?_⟩
        split
        · rfl
        · exact Slot.dir_unlink_from ..
      · exact ⟨s, (Graph.unlink_all_getSlot_other hS hrs hmem).trans h, rfl⟩

theorem Inv.unlink_all {g : Graph} (hg : Inv g) (sid : SlotId) : Inv (g.unlink_all sid) := by
  cases hS : g.getSlot sid with
  | none =>
    rw [Graph.unlink_all_of_none hS]
    exact hg
  | some sc =>
    have hdp := Graph.unlink_all_dirPreserved hg sid
    have hcases : ∀ (t : SlotId) (s : Slot), (g.unlink_all sid).getSlot t = some s →
        (t = sid ∧ s = { sc with linked_slots := [] }) ∨
        (t ≠ sid ∧ t ∈ sc.linked_slots ∧ ∃ st, g.getSlot t = some st ∧
          s = (if st.is_input then st.unlink_input else (st.unlink_from sid).1)) ∨
        (t ≠ sid ∧ t ∉ sc.linked_slots ∧ g.getSlot t = some s) := by
      intro t s h
      by_cases hts : t = sid
      · subst hts
        rw [Graph.unlink_all_getSlot_center hg hS] at h
        injection h with h
        exact Or.inl ⟨rfl, h.symm⟩
      · by_cases hmem : t ∈ sc.linked_slots
        · obtain ⟨st, hst, hd⟩ := hg.targets sid sc hS t hmem
          rw [Graph.unlink_all_getSlot_remote hg hS hmem hst] at h
          injection h with h
          exact Or.inr (Or.inl ⟨hts, hmem, st, hst, h.symm⟩)
        · exact Or.inr (Or.inr ⟨hts, hmem,
            (Graph.unlink_all_getSlot_other hS hts hmem).symm.trans h⟩)
    constructor
    · intro t s h
      rcases hcases t s h with ⟨ht, hs⟩ | ⟨_, _, st, hst, hs⟩ | ⟨_, _, hold⟩
      · subst hs
        rw [ht]
        exact hg.ids sid sc hS
      · subst hs
        split
        · rw [Slot.id_unlink_input]
          exact hg.ids t st hst
        · rw [Slot.id_unlink_from]
          exact hg.ids t st hst
      · exact hg.ids t s hold
    · intro t s h hin
      rcases hcases t s h with ⟨ht, hs⟩ | ⟨_, _, st, hst, hs⟩ | ⟨_, _, hold⟩
      · subst hs
        exact Nat.zero_le 1
      · subst hs
        split
        · exact Nat.zero_le 1
        · rename_i hsti
          rw [if_neg hsti] at hin
          rw [Slot.is_input_iff, Slot.dir_unlink_from, ← Slot.is_input_iff] at hin
          exact absurd hin hsti
      · exact hg.input_len t s hold hin
    · intro t s h hout
      rcases hcases t s h with ⟨ht, hs⟩ | ⟨_, _, st, hst, hs⟩ | ⟨_, _, hold⟩
      · subst hs
        exact List.nodup_nil
      · subst hs
        split
        · exact List.nodup_nil
        · rw [Slot.linked_unlink_from]
          rename_i hsti
          have : st.is_output = true := by
            cases hd : st.dir
            · exact absurd (Slot.is_input_iff.mpr hd) hsti
            · exact Slot.is_output_iff.mpr hd
          exact List.Nodup.erase sid (hg.out_nodup t st hst this)
      · exact hg.out_nodup t s hold hout
    · intro t s h r hr
      rcases hcases t s h with ⟨ht, hs⟩ | ⟨_, _, st, hst, hs⟩ | ⟨_, _, hold⟩
      · subst hs
        exact absurd hr (List.not_mem_nil r)
      · subst hs
        have hdif : (if st.is_input then st.unlink_input else (st.unlink_from sid).1).dir
            = st.dir := by
          split
          · rfl
          · exact Slot.dir_unlink_from ..
        rw [hdif]
        split at hr
        · exact absurd hr (List.not_mem_nil r)
        · rw [Slot.linked_unlink_from] at hr
          have hmem : r ∈ st.linked_slots := List.erase_subset sid st.linked_slots hr
          obtain ⟨s2, h2, hd⟩ := hg.targets t st hst r hmem
          obtain ⟨s3, h3, hd3⟩ := hdp r s2 h2
          exact ⟨s3, h3, hd3 ▸ hd⟩
      · obtain ⟨s2, h2, hd⟩ := hg.targets t s hold r hr
        obtain ⟨s3, h3, hd3⟩ := hdp r s2 h2
        exact ⟨s3, h3, hd3 ▸ hd⟩
    · intro t s h hin r hr
      rcases hcases t s h with ⟨ht, hs⟩ | ⟨_, _, st, hst, hs⟩ | ⟨hts, hnm, hold⟩
      · subst hs
        exact absurd hr (List.not_mem_nil r)
      · subst hs
        split at hr
        · exact absurd hr (List.not_mem_nil r)
        · rename_i hsti
          rw [if_neg hsti] at hin
          rw [Slot.is_input_iff, Slot.dir_unlink_from, ← Slot.is_input_iff] at hin
          exact absurd hin hsti
      · obtain ⟨s2, h2, hm⟩ := hg.forward t s hold hin r hr
        obtain ⟨s2d, h2d, hdd⟩ := hg.targets t s hold r hr
        rw [h2] at h2d
        injection h2d with h2d
        subst h2d
        have hrsid : r ≠ sid := by
          intro hre
          subst hre
          rw [h2] at hS
          injection hS with hS
          subst hS
          exact hnm hm
        by_cases hmem : r ∈ sc.linked_slots
        · -- the remote r is an output slot (it is a target of the input t)
          have hrout : s2.is_output = true := by
            cases hd : s2.dir with
            | Input => exact absurd (hd.trans (Slot.is_input_iff.mp hin).symm) hdd
            | Output => exact Slot.is_output_iff.mpr hd
          rw [Graph.unlink_all_getSlot_remote hg hS hmem h2]
          rw [Slot.not_input_of_output hrout]
          refine ⟨_, rfl, ?_⟩
          simp only [Bool.false_eq_true, if_false]
          rw [Slot.linked_unlink_from]
          exact (List.mem_erase_of_ne hts).mpr hm
        · exact ⟨s2, (Graph.unlink_all_getSlot_other hS hrsid hmem).trans h2, hm⟩

theorem Graph.isOutputSlot_iff {g : Graph} {o : SlotId} :
    g.isOutputSlot o = true ↔ ∃ s, g.getSlot o = some s ∧ s.is_output = true := by
  unfold Graph.isOutputSlot
  cases h : g.getSlot o <;> simp

theorem Graph.isInputSlot_iff {g : Graph} {i : SlotId} :
    g.isInputSlot i = true ↔ ∃ s, g.getSlot i = some s ∧ s.is_input = true := by
  unfold Graph.isInputSlot
  cases h : g.getSlot i <;> simp

/-- Every reachable graph satisfies the structural invariant. -/
theorem reachable_inv {g : Graph} (h : Reachable g) : Inv g := by
  induction h with
  | empty => exact Inv.empty
  | add_node g n _ ih => exact Inv.add_node ih n
  | link g o i _ ho hi ih =>
    obtain ⟨so, hso, hso2⟩ := Graph.isOutputSlot_iff.mp ho
    obtain ⟨si, hsi, hsi2⟩ := Graph.isInputSlot_iff.mp hi
    exact Inv.link ih hso hso2 hsi hsi2
  | unlink g o i _ ho hi ih =>
    obtain ⟨so, hso, hso2⟩ := Graph.isOutputSlot_iff.mp ho
    obtain ⟨si, hsi, hsi2⟩ := Graph.isInputSlot_iff.mp hi
    exact Inv.unlink ih hso hso2 hsi hsi2
  | unlink_all g s _ _ ih => exact Inv.unlink_all ih s

/-! ## Concrete graphs used as witnesses and counterexamples

A three-node graph: two attribute nodes (one output slot each, ids 1 and
2) and an add node (input slots 3 and 4, output slot 5). -/

def n1 : NodeId := ⟨1, Nat.one_pos⟩
def n2 : NodeId := ⟨2, Nat.succ_pos 1⟩
def n3 : NodeId := ⟨3, Nat.succ_pos 2⟩
def s1 : SlotId := ⟨1, Nat.one_pos⟩
def s2 : SlotId := ⟨2, Nat.succ_pos 1⟩
def s3 : SlotId := ⟨3, Nat.succ_pos 2⟩

def Gbase : Graph :=
  (((Graph.new.add_node (NodeKind.attr Attribute.POSITION)).1.add_node
      (NodeKind.attr Attribute.VELOCITY)).1.add_node NodeKind.add).1

/-- Gbase after linking output 1 (position) to input 3 (lhs of add). -/
def Glinked : Graph := Gbase.link s1 s3

/-- Glinked after linking output 2 (velocity) to the same input 3: the
single source of the input is silently replaced by slot 2, while slot 1 keeps
its stale back-reference to slot 3. -/
def Gstale : Graph := Glinked.link s2 s3

theorem reachable_Gbase : Reachable Gbase :=
  Reachable.add_node _ _ (Reachable.add_node _ _ (Reachable.add_node _ _ Reachable.empty))

theorem reachable_Glinked : Reachable Glinked :=
  Reachable.link Gbase s1 s3 reachable_Gbase (by decide) (by decide)

theorem reachable_Gstale : Reachable Gstale :=
  Reachable.link Glinked s2 s3 reachable_Glinked (by decide) (by decide)

/-! ## Claim C1 -/

/-- C1 (counterexample): the claimed cross-consistency invariant is false
on the code.  In the reachable graph `Gstale`, output slot 1 still lists
input slot 3 although the single link of slot 3 is slot 2: `link` replaces
the source of an input without retracting the back-reference of the old output. -/
theorem cross_consistency_cex :
    ¬ (∀ (g : Graph), Reachable g → g.cross_consistent) := by
  intro h
  exact absurd (h Gstale reachable_Gstale) (by decide)

/-- C1 (amended): only the forward direction of cross-consistency holds in
every reachable graph state: if an input slot lists output `o` as its
source, then the slot at `o` lists the input back.  The converse fails
after `link` replaces the source of an input (see `cross_consistency_cex`). -/
theorem reachable_forward_link_agreement (g : Graph) (hg : Reachable g)
    (i : SlotId) (si : Slot) (hi : g.getSlot i = some si) (hin : si.is_input = true)
    (o : SlotId) (ho : o ∈ si.linked_slots) :
    ∃ so, g.getSlot o = some so ∧ i ∈ so.linked_slots :=
  (reachable_inv hg).forward i si hi hin o ho

/-- C1 (witness): the amended theorem applied to the concrete reachable
graph `Glinked` at its linked input slot 3. -/
theorem reachable_forward_link_agreement_witness :
    ∃ so, Glinked.getSlot s1 = some so ∧ s3 ∈ so.linked_slots :=
  reachable_forward_link_agreement Glinked reachable_Glinked s3
    { node_id := n3, id := s3, sdef := SlotDef.input "lhs" none, linked_slots := [s1] }
    (by decide) (by decide) s1 (by decide)

/-! ## Claim C6 -/

/-- C6: single-source invariant — in every reachable graph state, every
input-direction slot has at most one linked slot. -/
theorem reachable_input_single_source (g : Graph) (hg : Reachable g)
    (t : SlotId) (s : Slot) (h : g.getSlot t = some s) (hin : s.is_input = true) :
    s.linked_slots.length ≤ 1 :=
  (reachable_inv hg).input_len t s h hin

/-- C6 (witness): the theorem applied to the twice-relinked input slot 3
of the concrete reachable graph `Gstale`. -/
theorem reachable_input_single_source_witness :
    ({ node_id := n3, id := s3, sdef := SlotDef.input "lhs" none,
       linked_slots := [s2] } : Slot).linked_slots.length ≤ 1 :=
  reachable_input_single_source Gstale reachable_Gstale s3
    { node_id := n3, id := s3, sdef := SlotDef.input "lhs" none, linked_slots := [s2] }
    (by decide) (by decide)

/-! ## Claim C4 -/

/-- C4: replace-without-retraction asymmetry of `link`.  In any reachable
state where input `i` is linked to output `o1`, linking a distinct valid
output `o2` to `i` makes the single link of `i` equal `o2`, adds `i` to
the link list of `o2`, and leaves the slot of `o1` entirely unchanged (it
still lists `i` as a stale back-reference); a subsequent `unlink o1 i`
does remove that stale back-reference. -/
theorem link_replace_no_retraction (g : Graph) (hg : Reachable g)
    (i o1 o2 : SlotId) (si : Slot)
    (hi : g.getSlot i = some si) (hin : si.is_input = true)
    (hlink : si.linked_slots = [o1])
    (so2 : Slot) (ho2 : g.getSlot o2 = some so2) (hout2 : so2.is_output = true)
    (hne : o2 ≠ o1) :
    ((g.link o2 i).getSlot i = some { si with linked_slots := [o2] }) ∧
    (∃ s, (g.link o2 i).getSlot o2 = some s ∧ i ∈ s.linked_slots) ∧
    ((g.link o2 i).getSlot o1 = g.getSlot o1) ∧
    (∃ s, (g.link o2 i).getSlot o1 = some s ∧ i ∈ s.linked_slots) ∧
    (∀ s, ((g.link o2 i).unlink o1 i).getSlot o1 = some s → i ∉ s.linked_slots) := by
  have hInv := reachable_inv hg
  have hmem1 : o1 ∈ si.linked_slots := by
    rw [hlink]
    exact List.mem_singleton_self o1
  obtain ⟨so1, ho1, hd1⟩ := hInv.targets i si hi o1 hmem1
  have hout1 : so1.is_output = true := by
    cases hd : so1.dir with
    | Input => exact absurd (hd.trans (Slot.is_input_iff.mp hin).symm) hd1
    | Output => exact Slot.is_output_iff.mpr hd
  obtain ⟨so1b, ho1b, hmemb⟩ := hInv.forward i si hi hin o1 hmem1
  rw [ho1] at ho1b
  injection ho1b with ho1b
  subst ho1b
  have hne2i : o2 ≠ i := Graph.link_ne ho2 hout2 hi hin
  have hne1i : o1 ≠ i := Graph.link_ne ho1 hout1 hi hin
  have hother : (g.link o2 i).getSlot o1 = g.getSlot o1 :=
    Graph.link_getSlot_other (Ne.symm hne) hne1i
  refine ⟨?_, ?_, hother, ?_, ?_⟩
  · rw [Graph.link_getSlot_in hi hne2i]
    obtain ⟨a, b, c, d⟩ := si
    simp only [] at hlink
    subst hlink
    rfl
  · exact ⟨so2.link_to i, Graph.link_getSlot_out ho2 hne2i, Slot.mem_link_to_self ..⟩
  · exact ⟨so1, hother.trans ho1, hmemb⟩
  · intro s hs
    rw [Graph.unlink_getSlot_out (hother.trans ho1) hne1i] at hs
    injection hs with hs
    rw [← hs, Slot.linked_unlink_from]
    exact List.Nodup.not_mem_erase (hInv.out_nodup o1 so1 ho1 hout1)

/-- C4 (witness): the theorem applied to the concrete reachable graph
`Glinked` (input slot 3 linked to output slot 1), relinking output slot 2. -/
theorem link_replace_no_retraction_witness :
    ((Glinked.link s2 s3).getSlot s3 = some
      { node_id := n3, id := s3, sdef := SlotDef.input "lhs" none, linked_slots := [s2] }) ∧
    (∃ s, (Glinked.link s2 s3).getSlot s2 = some s ∧ s3 ∈ s.linked_slots) ∧
    ((Glinked.link s2 s3).getSlot s1 = Glinked.getSlot s1) ∧
    (∃ s, (Glinked.link s2 s3).getSlot s1 = some s ∧ s3 ∈ s.linked_slots) ∧
    (∀ s, ((Glinked.link s2 s3).unlink s1 s3).getSlot s1 = some s →
      s3 ∉ s.linked_slots) :=
  link_replace_no_retraction Glinked reachable_Glinked s3 s1 s2
    { node_id := n3, id := s3, sdef := SlotDef.input "lhs" none, linked_slots := [s1] }
    (by decide) (by decide) (by decide)
    { node_id := n2, id := s2, sdef := SlotDef.output "velocity" (some { tag := 3 }),
      linked_slots := [] }
    (by decide) (by decide) (by decide)

/-! ## Claim C7 -/

/-- C7: idempotence of re-linking.  If output `o` and input `i` are
already linked to each other in a reachable state, calling `link o i`
again leaves the whole graph unchanged, and the link list of `o` contains
`i` exactly once. -/
theorem relink_idempotent (g : Graph) (hg : Reachable g)
    (o i : SlotId) (so si : Slot)
    (ho : g.getSlot o = some so) (hout : so.is_output = true)
    (hi : g.getSlot i = some si) (hin : si.is_input = true)
    (hmem : i ∈ so.linked_slots) (hback : si.linked_slots = [o]) :
    g.link o i = g ∧ so.linked_slots.count i = 1 := by
  have hInv := reachable_inv hg
  constructor
  · unfold Graph.link
    have h1 : so.link_to i = so := by
      unfold Slot.link_to
      rw [if_pos hmem]
    have e1 : g.updateSlot o (fun s => s.link_to i) = g := by
      unfold Graph.updateSlot
      rw [ho]
      simp only [h1]
      exact Graph.setSlot_self ho
    rw [e1]
    have h2 : si.link_input o = si := by
      obtain ⟨a, b, c, d⟩ := si
      simp only [] at hback
      subst hback
      rfl
    unfold Graph.updateSlot
    rw [hi]
    simp only [h2]
    exact Graph.setSlot_self hi
  · exact List.count_eq_one_of_mem (hInv.out_nodup o so ho hout) hmem

/-- C7 (witness): the theorem applied to the concrete reachable graph
`Glinked`, re-linking the already-linked pair (output 1, input 3). -/
theorem relink_idempotent_witness :
    Glinked.link s1 s3 = Glinked ∧
    ({ node_id := n1, id := s1, sdef := SlotDef.output "position" (some { tag := 3 }),
       linked_slots := [s3] } : Slot).linked_slots.count s3 = 1 :=
  relink_idempotent Glinked reachable_Glinked s1 s3
    { node_id := n1, id := s1, sdef := SlotDef.output "position" (some { tag := 3 }),
      linked_slots := [s3] }
    { node_id := n3, id := s3, sdef := SlotDef.input "lhs" none, linked_slots := [s1] }
    (by decide) (by decide) (by decide) (by decide) (by decide) (by decide)

/-! ## Claim C8 -/

/-- C8 (counterexample): the claimed postcondition of `unlink_all` is
false on the code.  In the reachable graph `Gstale`, output slot 1 holds a
stale back-reference to input slot 3 (whose live link is slot 2); after
`unlink_all` on slot 3, slot 1 still lists slot 3, because `unlink_all`
only walks the link list of its argument and slot 3 does not list
slot 1. -/
theorem unlink_all_stale_backref_cex :
    ¬ (∀ (g : Graph), Reachable g → ∀ (sid : SlotId) (s : Slot),
        g.getSlot sid = some s →
        ∀ (t : SlotId) (st : Slot), g.getSlot t = some st → sid ∈ st.linked_slots →
        ∀ st2, (g.unlink_all sid).getSlot t = some st2 → sid ∉ st2.linked_slots) := by
  intro h
  exact h Gstale reachable_Gstale s3
    { node_id := n3, id := s3, sdef := SlotDef.input "lhs" none, linked_slots := [s2] }
    (by decide) s1
    { node_id := n1, id := s1, sdef := SlotDef.output "position" (some { tag := 3 }),
      linked_slots := [s3] }
    (by decide) (by decide)
    { node_id := n1, id := s1, sdef := SlotDef.output "position" (some { tag := 3 }),
      linked_slots := [s3] }
    (by decide) (by decide)

/-- C8 (amended): after `unlink_all sid`, the slot at `sid` has an empty
link list, and every slot that `sid` itself listed no longer lists `sid`.
A slot holding only a stale back-reference to `sid` (listing `sid` while
`sid` did not list it, possible after `link` replaces the source of an input)
keeps that reference (see `unlink_all_stale_backref_cex`). -/
theorem unlink_all_clears_listed (g : Graph) (hg : Reachable g)
    (sid : SlotId) (s : Slot) (hS : g.getSlot sid = some s) :
    ((g.unlink_all sid).getSlot sid = some { s with linked_slots := [] }) ∧
    (∀ r ∈ s.linked_slots, ∀ sr, (g.unlink_all sid).getSlot r = some sr →
      sid ∉ sr.linked_slots) := by
  have hInv := reachable_inv hg
  refine ⟨Graph.unlink_all_getSlot_center hInv hS, ?_⟩
  intro r hr sr hsr
  obtain ⟨st, hst, _⟩ := hInv.targets sid s hS r hr
  rw [Graph.unlink_all_getSlot_remote hInv hS hr hst] at hsr
  injection hsr with hsr
  rw [← hsr]
  split
  · rw [Slot.linked_unlink_input]
    exact List.not_mem_nil sid
  · rw [Slot.linked_unlink_from]
    exact List.Nodup.not_mem_erase (hInv.linked_nodup hst)

/-- C8 (witness): the amended theorem applied to the concrete reachable
graph `Gstale` at input slot 3 (whose link list is `[2]`). -/
theorem unlink_all_clears_listed_witness :
    ((Gstale.unlink_all s3).getSlot s3 = some
      { node_id := n3, id := s3, sdef := SlotDef.input "lhs" none, linked_slots := [] }) ∧
    (∀ r ∈ ([s2] : List SlotId),
      ∀ sr, (Gstale.unlink_all s3).getSlot r = some sr → s3 ∉ sr.linked_slots) :=
  unlink_all_clears_listed Gstale reachable_Gstale s3
    { node_id := n3, id := s3, sdef := SlotDef.input "lhs" none, linked_slots := [s2] }
    (by decide)

/-! ## Claim C10 -/

/-- C10: `unlink_all` on an output slot `S` clears a listed remote input
unconditionally.  If `S` lists input `i` while the current single link of
`i` is a different output `o2`, then `unlink_all S` empties the link list
of `i` entirely — severing the live `o2 → i` edge on the side of `i` —
while the slot of `o2` is unchanged and still lists `i`. -/
theorem unlink_all_clears_remote_input (g : Graph) (hg : Reachable g)
    (S i o2 : SlotId) (sS si : Slot)
    (hS : g.getSlot S = some sS) (hout : sS.is_output = true)
    (hmem : i ∈ sS.linked_slots)
    (hi : g.getSlot i = some si) (hlink : si.linked_slots = [o2])
    (hne : o2 ≠ S) :
    ((g.unlink_all S).getSlot i = some { si with linked_slots := [] }) ∧
    ((g.unlink_all S).getSlot o2 = g.getSlot o2) ∧
    (∃ so2, (g.unlink_all S).getSlot o2 = some so2 ∧ i ∈ so2.linked_slots) := by
  have hInv := reachable_inv hg
  obtain ⟨si2, hi2, hd2⟩ := hInv.targets S sS hS i hmem
  rw [hi] at hi2
  injection hi2 with hi2
  subst hi2
  have hin : si.is_input = true := by
    cases hd : si.dir with
    | Input => exact Slot.is_input_iff.mpr hd
    | Output => exact absurd (hd.trans (Slot.is_output_iff.mp hout).symm) hd2
  have hmem2 : o2 ∈ si.linked_slots := by
    rw [hlink]
    exact List.mem_singleton_self o2
  obtain ⟨so2, ho2, hdo2⟩ := hInv.targets i si hi o2 hmem2
  have hno2 : o2 ∉ sS.linked_slots := by
    intro hmo2
    obtain ⟨so2b, ho2b, hdb⟩ := hInv.targets S sS hS o2 hmo2
    rw [ho2] at ho2b
    injection ho2b with ho2b
    subst ho2b
    rw [Slot.is_output_iff.mp hout] at hdb
    rw [Slot.is_input_iff.mp hin] at hdo2
    cases hd : so2.dir with
    | Input => exact hdo2 (by rw [hd])
    | Output => exact hdb (by rw [hd])
  have hother : (g.unlink_all S).getSlot o2 = g.getSlot o2 :=
    Graph.unlink_all_getSlot_other hS hne hno2
  refine ⟨?_, hother, ?_⟩
  · rw [Graph.unlink_all_getSlot_remote hInv hS hmem hi, if_pos hin]
    rfl
  · obtain ⟨so2c, ho2c, hmc⟩ := hInv.forward i si hi hin o2 hmem2
    rw [ho2] at ho2c
    injection ho2c with ho2c
    subst ho2c
    exact ⟨so2, hother.trans ho2, hmc⟩

/-- C10 (witness): the theorem applied to the concrete reachable graph
`Gstale`, where output slot 1 holds a stale reference to input slot 3
whose live link is output slot 2. -/
theorem unlink_all_clears_remote_input_witness :
    ((Gstale.unlink_all s1).getSlot s3 = some
      { node_id := n3, id := s3, sdef := SlotDef.input "lhs" none, linked_slots := [] }) ∧
    ((Gstale.unlink_all s1).getSlot s2 = Gstale.getSlot s2) ∧
    (∃ so2, (Gstale.unlink_all s1).getSlot s2 = some so2 ∧ s3 ∈ so2.linked_slots) :=
  unlink_all_clears_remote_input Gstale reachable_Gstale s1 s3 s2
    { node_id := n1, id := s1, sdef := SlotDef.output "position" (some { tag := 3 }),
      linked_slots := [s3] }
    { node_id := n3, id := s3, sdef := SlotDef.input "lhs" none, linked_slots := [s2] }
    (by decide) (by decide) (by decide) (by decide) (by decide) (by decide)

/-! ## Claim C2 -/

/-- C2 (code evaluation at the failing input): `NormalizeNode::default()`
declares its `in` slot with `SlotDef::output`, so for a freshly added
normalize node the graph reports zero input slots and two output slots,
instead of the one input and one output the spec table, the field doc
comment, and the 1-input arity check of `NormalizeNode::eval` all intend. -/
theorem normalize_node_graph_slots :
    ((Graph.new.add_node NodeKind.normalize).2 = n1) ∧
    ((Graph.new.add_node NodeKind.normalize).1.input_slots n1 = []) ∧
    ((Graph.new.add_node NodeKind.normalize).1.output_slots n1 = [s1, s2]) := by
  decide

/-! ## Claim C3 -/

/-- C3 (code evaluation at the failing input): `NormalizeNode` declares
two output slots in its `slots()` list (because of the `SlotDef::output`
slip on the `in` slot), yet a successful `eval` with one input returns a
single expression handle — not one handle per declared output slot. -/
theorem normalize_eval_handles_vs_declared_outputs :
    ((NodeKind.normalize.slots.filter SlotDef.is_output).length = 2) ∧
    ((NodeKind.normalize.eval { exprs := [] } [7]).2 = Except.ok [1]) ∧
    (∀ outs, (NodeKind.normalize.eval { exprs := [] } [7]).2 = Except.ok outs →
      outs.length = 1) := by
  refine ⟨by decide, rfl, ?_⟩
  intro outs h
  injection h with h
  rw [← h]
  rfl

/-! ## Claim C5 -/

/-- C5: for every shipped node variant, `eval` returns a
`GraphEvalError` exactly when the input count differs from the declared
arity (2 for Add/Sub/Mul/Div, 0 for Attribute and Time, 1 for Normalize),
and returns `Ok` on a matching count, for any builder state. -/
theorem eval_graph_error_iff_arity (n : NodeKind) (hn : n.is_shipped = true)
    (m : Module) (inputs : List ExprHandle) :
    ((∃ msg, (n.eval m inputs).2 = Except.error (ExprError.GraphEvalError msg)) ↔
      inputs.length ≠ n.evalArity) ∧
    (inputs.length = n.evalArity → ∃ outs, (n.eval m inputs).2 = Except.ok outs) := by
  cases n with
  | add | sub | mul | div =>
    match inputs with
    | [] => simp [NodeKind.eval, NodeKind.evalArity]
    | [a] => simp [NodeKind.eval, NodeKind.evalArity]
    | [a, b] => simp [NodeKind.eval, NodeKind.evalArity]
    | a :: b :: c :: rest => simp [NodeKind.eval, NodeKind.evalArity]
  | attr a =>
    match inputs with
    | [] => simp [NodeKind.eval, NodeKind.evalArity]
    | x :: rest => simp [NodeKind.eval, NodeKind.evalArity]
  | time =>
    match inputs with
    | [] => simp [NodeKind.eval, NodeKind.evalArity]
    | x :: rest => simp [NodeKind.eval, NodeKind.evalArity]
  | normalize =>
    match inputs with
    | [] => simp [NodeKind.eval, NodeKind.evalArity]
    | [a] => simp [NodeKind.eval, NodeKind.evalArity]
    | a :: b :: rest => simp [NodeKind.eval, NodeKind.evalArity]
  | custom defs => exact absurd hn (by simp [NodeKind.is_shipped])

/-- C5 (witness): the theorem applied to the normalize variant with an
empty input vector (count 0 differs from arity 1). -/
theorem eval_graph_error_iff_arity_witness :
    NodeKind.normalize.is_shipped = true ∧
    (((∃ msg, (NodeKind.normalize.eval { exprs := [] } ([] : List ExprHandle)).2 =
        Except.error (ExprError.GraphEvalError msg)) ↔
      ([] : List ExprHandle).length ≠ NodeKind.normalize.evalArity) ∧
    (([] : List ExprHandle).length = NodeKind.normalize.evalArity →
      ∃ outs, (NodeKind.normalize.eval { exprs := [] } ([] : List ExprHandle)).2 =
        Except.ok outs)) :=
  ⟨rfl, eval_graph_error_iff_arity NodeKind.normalize rfl { exprs := [] } []⟩

/-! ## Claim C9 -/

/-- C9: atomicity of `eval` on error — whenever the `eval` of a node variant
returns an error, the expression-builder state is returned unchanged: the
arity check happens before any builder operation is recorded. -/
theorem eval_error_preserves_module (n : NodeKind) (m : Module)
    (inputs : List ExprHandle) (e : ExprError)
    (h : (n.eval m inputs).2 = Except.error e) : (n.eval m inputs).1 = m := by
  cases n with
  | add | sub | mul | div =>
    match inputs with
    | [] => rfl
    | [a] => rfl
    | [a, b] => simp [NodeKind.eval] at h
    | a :: b :: c :: rest => rfl
  | attr a =>
    match inputs with
    | [] => simp [NodeKind.eval] at h
    | x :: rest => rfl
  | time =>
    match inputs with
    | [] => simp [NodeKind.eval] at h
    | x :: rest => rfl
  | normalize =>
    match inputs with
    | [] => rfl
    | [a] => simp [NodeKind.eval] at h
    | a :: b :: rest => rfl
  | custom defs => rfl

/-- C9 (witness): the theorem applied to the attribute node evaluated with
a spurious input on an empty builder. -/
theorem eval_error_preserves_module_witness :
    ((NodeKind.attr Attribute.POSITION).eval { exprs := [] } [4]).1 =
      ({ exprs := [] } : Module) :=
  eval_error_preserves_module (NodeKind.attr Attribute.POSITION) { exprs := [] } [4]
    (ExprError.GraphEvalError "Unexpected non-empty input to AttributeNode::eval().") rfl

end Hanabi
